import Mathlib

/-!
Shallow embedding of `coco_instances_to_yolo_instances.py` from the AKUDENTAL
repository, together with proofs about its behaviour.

Modelling conventions:
* Python floats are modelled as exact rationals (`ℚ`); the `%.6f` format is
  modelled by rounding the exact value to 6 decimal places, ties to even.
* Python dicts are modelled as insertion-ordered association lists; lookup is
  last-write-wins, exactly like repeated dict assignment.
* The filesystem is modelled as a finite set of directories plus an
  association list of files (path, content); `shutil.rmtree`,
  `mkdir(parents=True)`, `shutil.copy` and `open(...).write` act on it.
* The `IndexError` raised by `ann['segmentation'][0]` on an empty segmentation
  list is modelled by `Except Unit`; any such error aborts the whole run, as an
  uncaught exception does in the script.
-/

attribute [local semireducible] Rat.mul Rat.inv Rat.add Rat.sub

deriving instance DecidableEq for Except

/-- Boolean lexicographic comparison of char lists, structurally recursive so
that the kernel can evaluate it (unlike `String.ltb`). -/
def listLtb : List Char → List Char → Bool
  | [], [] => false
  | [], _ :: _ => true
  | _ :: _, [] => false
  | a :: as, b :: bs => if a < b then true else if b < a then false else listLtb as bs

/-- Kernel-evaluable decidability of the standard string order (the default
instance goes through `String.ltb`, which does not reduce). -/
instance (priority := 2000) strLeDecidable :
    DecidableRel ((· ≤ ·) : String → String → Prop) := fun a b =>
  decidable_of_iff (listLtb b.data a.data = false) (by
    suffices h : ∀ x y : List Char, listLtb x y = true ↔ x < y by
      have hlt : b < a ↔ listLtb b.data a.data = true :=
        (String.lt_iff_toList_lt).trans (h b.data a.data).symm
      constructor
      · intro hf hba
        rw [hlt, hf] at hba
        exact Bool.false_ne_true hba
      · intro hle
        cases hq : listLtb b.data a.data with
        | false => rfl
        | true => exact absurd (hlt.mpr hq) (not_lt.mpr hle)
    intro x y
    induction x generalizing y with
    | nil =>
      cases y with
      | nil =>
        simp only [listLtb, Bool.false_eq_true, false_iff]
        intro hc; cases hc
      | cons c cs =>
        simp only [listLtb, true_iff]
        exact List.Lex.nil
    | cons a as ih =>
      cases y with
      | nil =>
        simp only [listLtb, Bool.false_eq_true, false_iff]
        intro hc; cases hc
      | cons b bs =>
        simp only [listLtb]
        rcases lt_trichotomy a b with hab | heq | hba
        · rw [if_pos hab]
          simp only [true_iff]
          exact List.Lex.rel hab
        · subst heq
          rw [if_neg (lt_irrefl a), if_neg (lt_irrefl a), ih bs]
          constructor
          · intro hlt2
            exact List.Lex.cons hlt2
          · intro hc
            cases hc with
            | cons h => exact h
            | rel h => exact absurd h (lt_irrefl a)
        · rw [if_neg (not_lt_of_gt hba), if_pos hba]
          simp only [Bool.false_eq_true, false_iff]
          intro hc
          cases hc with
          | cons _ => exact absurd hba (lt_irrefl a)
          | rel h => exact absurd hba (not_lt_of_gt h))

/-- Image record from the COCO `images` array. -/
structure ImageRec where
  id : Int
  file_name : String
  width : Int
  height : Int
deriving DecidableEq

/-- One record of the COCO `annotations` array; `segmentation` is the ordered
list of polygon rings, each ring a flat list of alternating x, y coordinates. -/
structure AnnRec where
  image_id : Int
  category_id : Int
  segmentation : List (List ℚ)
deriving DecidableEq

/-- Category record from the COCO `categories` array. -/
structure CatRec where
  id : Int
  name : String
deriving DecidableEq

/-- Python dict lookup over the list of assignments made while building the
dict: the LAST assignment to a key wins; `none` models a missing key. -/
def dlookup {α β : Type} [DecidableEq α] : List (α × β) → α → Option β
  | [], _ => none
  | kv :: rest, k =>
    match dlookup rest k with
    | some v => some v
    | none => if k = kv.1 then some kv.2 else none

/-- One assignment `d[k] = v` on the item list of a Python dict: an existing
binding is overwritten in place, a new key is appended. -/
def dictInsert {α β : Type} [DecidableEq α] (ps : List (α × β)) (k : α) (v : β) :
    List (α × β) :=
  if ps.any (fun e => e.1 == k) then ps.map (fun e => if e.1 = k then (k, v) else e)
  else ps ++ [(k, v)]

/-- Item list (insertion order) of the Python dict built from `l` by successive
assignments. -/
def dictOf {α β : Type} [DecidableEq α] (l : List (α × β)) : List (α × β) :=
  l.foldl (fun ps kv => dictInsert ps kv.1 kv.2) []

/-- Python `enumerate`, starting at `k`. -/
def enumerateFrom {α : Type} : Nat → List α → List (Nat × α)
  | _, [] => []
  | k, a :: t => (k, a) :: enumerateFrom (k + 1) t

/-- Line 40: `sorted([cat['name'] for cat in coco_data['categories']])`.
Python's sort is a stable ascending sort, modelled by insertion sort. -/
def class_names_ordered (cats : List CatRec) : List String :=
  List.insertionSort (· ≤ ·) (cats.map CatRec.name)

/-- Line 41: `{name: i for i, name in enumerate(class_names_ordered)}` as a
lookup function. -/
def class_name_to_id (cats : List CatRec) : String → Option Nat :=
  dlookup ((enumerateFrom 0 (class_names_ordered cats)).map (fun p => (p.2, p.1)))

/-- Lines 42-45: `{cat['id']: class_name_to_id[cat['name']] for cat in ...}`.
The inner lookup never fails because every category name occurs in the sorted
name list, so the `filterMap` drops nothing. -/
def coco_cat_id_to_yolo_id (cats : List CatRec) : Int → Option Nat :=
  dlookup (cats.filterMap (fun c => (class_name_to_id cats c.name).map (fun v => (c.id, v))))

/-- Round an exact rational to the nearest integer, ties to even — the
rounding performed by `%.6f` formatting of the exact value. -/
def roundHalfEven (q : ℚ) : Int :=
  if q - ⌊q⌋ < 1 / 2 then ⌊q⌋
  else if 1 / 2 < q - ⌊q⌋ then ⌊q⌋ + 1
  else if ⌊q⌋ % 2 = 0 then ⌊q⌋ else ⌊q⌋ + 1

/-- The exact rational value that `%.6f` prints for `q`. -/
def emit6 (q : ℚ) : ℚ := (roundHalfEven (q * 1000000) : ℚ) / 1000000

/-- Round a rational to `d` decimal places, ties to even. -/
def roundToPrec (d : Nat) (q : ℚ) : ℚ :=
  (roundHalfEven (q * 10 ^ d) : ℚ) / 10 ^ d

/-- Decimal digits of `n`, left-padded with zeros to width 6. -/
def pad6 (n : Nat) : String :=
  let s := toString n
  String.mk (List.replicate (6 - s.length) '0') ++ s

/-- Python `f"{p:.6f}"` on the exact rational `p`. -/
def fmt6 (q : ℚ) : String :=
  let m := (roundHalfEven (q * 1000000)).natAbs
  (if q < 0 then "-" else "") ++ toString (m / 1000000) ++ "." ++ pad6 (m % 1000000)

/-- Lines 92-95: `coord / (img_width if i % 2 == 0 else img_height)` over the
enumerated flat coordinate list of one polygon ring. -/
def normalized_points (w h : Int) (seg : List ℚ) : List ℚ :=
  (enumerateFrom 0 seg).map (fun p => p.2 / (if p.1 % 2 = 0 then (w : ℚ) else (h : ℚ)))

/-- Lines 96-97: `points_str = " ".join(...)`; `f"{yolo_class_id} {points_str}"`. -/
def yoloLine (yid : Nat) (ps : List ℚ) : String :=
  toString yid ++ " " ++ String.intercalate " " (ps.map fmt6)

/-- Lines 87-97: the per-image encoding loop. `.error ()` models the
`IndexError` raised by `ann['segmentation'][0]` when the segmentation list is
empty; the unmapped-category `continue` on line 89 happens before that access. -/
def encodeAnns (catMap : Int → Option Nat) (w h : Int) : List AnnRec → Except Unit (List String)
  | [] => .ok []
  | a :: rest =>
    match catMap a.category_id with
    | none => encodeAnns catMap w h rest
    | some yid =>
      match a.segmentation with
      | [] => .error ()
      | seg :: _ =>
        match encodeAnns catMap w h rest with
        | .error e => .error e
        | .ok lines => .ok (yoloLine yid (normalized_points w h seg) :: lines)

/-- Line 102: `"\n".join(yolo_annotations)` — the content written to the label
file (the empty string when no line was produced). -/
def labelContent (catMap : Int → Option Nat) (w h : Int) (anns : List AnnRec) :
    Except Unit String :=
  match encodeAnns catMap w h anns with
  | .error e => .error e
  | .ok lines => .ok (String.intercalate "\n" lines)

/-- Line 32: `images_info = {img['id']: img for img in coco_data['images']}`,
kept as the dict's insertion-ordered item list. -/
def imagesItems (imgs : List ImageRec) : List (Int × ImageRec) :=
  dictOf (imgs.map (fun img => (img.id, img)))

/-- Line 72: `next((i_id for i_id, i_info in images_info.items() if
i_info['file_name'] == image_filename), None)`. -/
def findImageId (imgs : List ImageRec) (fname : String) : Option Int :=
  ((imagesItems imgs).find? (fun e => e.2.file_name == fname)).map (fun e => e.1)

/-- Lines 33-38: the per-image list of records of the `annotations` array,
grouped by `image_id` in input order (an absent key yields the empty list). -/
def anns_by_image_id (anns : List AnnRec) (imgId : Int) : List AnnRec :=
  anns.filter (fun a => a.image_id == imgId)

/-- Paths are lists of components. -/
abbrev FPath := List String

/-- Filesystem model: a finite set of directories plus an association list of
files (path, content). -/
structure FS where
  dirs : Finset FPath
  files : List (FPath × String)
deriving DecidableEq

/-- `pathUnder r p` holds when `p` equals `r` or lies inside the directory `r`. -/
def pathUnder : FPath → FPath → Bool
  | [], _ => true
  | _, [] => false
  | a :: r, b :: p => a == b && pathUnder r p

/-- `Path.exists()` for the path `p`. -/
def pathExists (fs : FS) (p : FPath) : Bool :=
  decide (p ∈ fs.dirs) || fs.files.any (fun e => e.1 == p)

/-- `shutil.rmtree(p)`: removes `p` and everything below it. -/
def rmtree (fs : FS) (p : FPath) : FS :=
  { dirs := fs.dirs.filter (fun d => pathUnder p d = false),
    files := fs.files.filter (fun e => !(pathUnder p e.1)) }

/-- All nonempty prefixes of a path, shortest first. -/
def prefixesOf : FPath → List FPath
  | [] => []
  | a :: rest => [a] :: (prefixesOf rest).map (fun q => a :: q)

/-- `Path(p).mkdir(parents=True, exist_ok=True)`: creates `p` and all missing
ancestors. -/
def mkdirp (fs : FS) (p : FPath) : FS :=
  { fs with dirs := fs.dirs ∪ (prefixesOf p).toFinset }

/-- Read the content of the file at `p`, if present. -/
def readFile (fs : FS) (p : FPath) : Option String :=
  (fs.files.find? (fun e => e.1 == p)).map (fun e => e.2)

/-- Create or overwrite the file at `p` with content `c`. -/
def writeFile (fs : FS) (p : FPath) (c : String) : FS :=
  { fs with files := fs.files.filter (fun e => !(e.1 == p)) ++ [(p, c)] }

/-- Read a file out of the state produced by a fallible step; `none` when the
step aborted or the file is absent. -/
def resultReadFile (r : Except Unit FS) (p : FPath) : Option String :=
  match r with
  | .error _ => none
  | .ok fs => readFile fs p

/-- Index of the last '.' of the list, if any. -/
def lastDotIdx (cs : List Char) : Option Nat :=
  (((enumerateFrom 0 cs).filter (fun p => p.2 == '.')).getLast?).map (fun p => p.1)

/-- `Path(s).stem` for ordinary file names: the name with its last extension
removed; a name without a dot, or with a dot only at position 0, is unchanged. -/
def stem (s : String) : String :=
  match lastDotIdx s.toList with
  | none => s
  | some 0 => s
  | some i => String.mk (s.toList.take i)

/-- The in-memory inputs of `create_yolo_datasets_for_all_folds`: the base
path, the three parsed COCO arrays and the parsed split manifest. -/
structure Ctx where
  base : FPath
  images : List ImageRec
  anns : List AnnRec
  categories : List CatRec
  splitInfo : List (String × List (String × List String))
deriving DecidableEq

/-- Line 49: `f"fold_{i}"`. -/
def foldName (i : Nat) : String := "fold_" ++ toString i

/-- Line 50: `base_path / f"AKUDENTAL_YOLO_{fold_name.upper()}"`. -/
def outBase (ctx : Ctx) (i : Nat) : FPath :=
  ctx.base ++ ["AKUDENTAL_YOLO_FOLD_" ++ toString i]

/-- Line 65: the console message reporting a fold missing from the manifest. -/
def missingMsg (n : String) : String :=
  "Error: " ++ n ++ " not found in split_info.json. Skipping."

/-- Lines 70-102: the body of the per-image loop. Skips silently when the file
name matches no image record (line 73) or the source image file is missing
(line 80); otherwise copies the image and writes the label file. The
unreachable `.error ()` on the `images_info[image_id]` lookup models the
KeyError Python would raise if the id were absent. -/
def processImage (ctx : Ctx) (ob : FPath) (sn fname : String) (fs : FS) : Except Unit FS :=
  match findImageId ctx.images fname with
  | none => .ok fs
  | some imgId =>
    match readFile fs (ctx.base ++ [fname]) with
    | none => .ok fs
    | some content =>
      let fs1 := writeFile fs (ob ++ ["images", sn, fname]) content
      match dlookup (imagesItems ctx.images) imgId with
      | none => .error ()
      | some img =>
        match labelContent (coco_cat_id_to_yolo_id ctx.categories) img.width img.height
            (anns_by_image_id ctx.anns imgId) with
        | .error e => .error e
        | .ok lbl => .ok (writeFile fs1 (ob ++ ["labels", sn, stem fname ++ ".txt"]) lbl)

/-- The inner `for image_filename in image_files` loop of one split. -/
def processFiles (ctx : Ctx) (ob : FPath) (sn : String) : List String → FS → Except Unit FS
  | [], fs => .ok fs
  | f :: rest, fs =>
    match processImage ctx ob sn f fs with
    | .error e => .error e
    | .ok fs1 => processFiles ctx ob sn rest fs1

/-- Line 68: `for split_name, image_files in fold_splits.items()`. -/
def processSplits (ctx : Ctx) (ob : FPath) : List (String × List String) → FS → Except Unit FS
  | [], fs => .ok fs
  | s :: rest, fs =>
    match processFiles ctx ob s.1 s.2 fs with
    | .error e => .error e
    | .ok fs1 => processSplits ctx ob rest fs1

/-- Lines 105-118: the `dataset.yaml` text for one fold. -/
def yamlContent (ctx : Ctx) (i : Nat) : String :=
  "\n# Dataset configuration for FOLD_" ++ toString i
    ++ "\npath: " ++ String.intercalate "/" (outBase ctx i)
    ++ "\ntrain: images/train\nval: images/val\ntest: images/test\n\nnc: "
    ++ toString (class_names_ordered ctx.categories).length
    ++ "\nnames:\n"
    ++ String.join ((enumerateFrom 0 (class_names_ordered ctx.categories)).map
        (fun p => "  " ++ toString p.1 ++ ": " ++ p.2 ++ "\n"))

/-- Lines 59-61: create `images/{train,val,test}` and `labels/{train,val,test}`. -/
def makeSkeleton (fs : FS) (ob : FPath) : FS :=
  ["train", "val", "test"].foldl
    (fun s split => mkdirp (mkdirp s (ob ++ ["images", split])) (ob ++ ["labels", split])) fs

/-- Lines 63-119, after the destructive directory recreation: the manifest
check (`if not fold_splits`, which treats an empty mapping like a missing
key), the split processing and the `dataset.yaml` write. The returned list is
the console error message emitted for a skipped fold. -/
def foldBody (ctx : Ctx) (i : Nat) (fs1 : FS) : Except Unit (FS × List String) :=
  match dlookup ctx.splitInfo (foldName i) with
  | none => .ok (fs1, [missingMsg (foldName i)])
  | some splits =>
    if splits.isEmpty then .ok (fs1, [missingMsg (foldName i)])
    else
      match processSplits ctx (outBase ctx i) splits fs1 with
      | .error e => .error e
      | .ok fs2 => .ok (writeFile fs2 (outBase ctx i ++ ["dataset.yaml"]) (yamlContent ctx i), [])

/-- Lines 48-119: one iteration of the fold loop — remove the output directory
if present, create the fresh skeleton, then run `foldBody`. -/
def runFoldFS (ctx : Ctx) (i : Nat) (fs : FS) : Except Unit (FS × List String) :=
  foldBody ctx i
    (makeSkeleton
      (if pathExists fs (outBase ctx i) then rmtree fs (outBase ctx i) else fs)
      (outBase ctx i))

/-- The fold loop over a list of fold indices, accumulating console messages. -/
def runFolds (ctx : Ctx) : List Nat → FS → List String → Except Unit (FS × List String)
  | [], fs, log => .ok (fs, log)
  | i :: rest, fs, log =>
    match runFoldFS ctx i fs with
    | .error e => .error e
    | .ok r => runFolds ctx rest r.1 (log ++ r.2)

/-- The whole pipeline: `for i in range(5)`. -/
def create_yolo_datasets_for_all_folds (ctx : Ctx) (fs : FS) :
    Except Unit (FS × List String) :=
  runFolds ctx [0, 1, 2, 3, 4] fs []

/-- The union of directory chains created by `makeSkeleton`. -/
def skChain (ob : FPath) : Finset FPath :=
  (prefixesOf (ob ++ ["images", "train"])).toFinset
    ∪ (prefixesOf (ob ++ ["labels", "train"])).toFinset
    ∪ (prefixesOf (ob ++ ["images", "val"])).toFinset
    ∪ (prefixesOf (ob ++ ["labels", "val"])).toFinset
    ∪ (prefixesOf (ob ++ ["images", "test"])).toFinset
    ∪ (prefixesOf (ob ++ ["labels", "test"])).toFinset

/-- The nine directories of a fresh fold skeleton at `ob`. -/
def obSkel (ob : FPath) : Finset FPath :=
  {ob, ob ++ ["images"], ob ++ ["images", "train"], ob ++ ["images", "val"],
   ob ++ ["images", "test"], ob ++ ["labels"], ob ++ ["labels", "train"],
   ob ++ ["labels", "val"], ob ++ ["labels", "test"]}

/-- Concrete context with one image whose single record of the `annotations`
array has an empty segmentation list: running the pipeline on it aborts. -/
def ctxC9 : Ctx :=
  { base := []
    images := [⟨1, "im.jpg", 10, 10⟩]
    anns := [⟨1, 2, []⟩]
    categories := [⟨2, "cavity"⟩]
    splitInfo := [("fold_0", [("train", ["im.jpg"])])] }

/-- Initial filesystem for `ctxC9`: just the source image. -/
def fsC9 : FS := ⟨∅, [(["im.jpg"], "IMGDATA")]⟩

/-- Empty context: no images, no records, no categories, empty manifest. -/
def ctx0 : Ctx := ⟨[], [], [], [], []⟩

/-- Empty filesystem. -/
def fs0 : FS := ⟨∅, []⟩

/-- Concrete context whose single image has one record of the `annotations`
array, of a category id (7) absent from the category table. -/
def ctxC4 : Ctx :=
  { base := []
    images := [⟨1, "im.jpg", 10, 10⟩]
    anns := [⟨1, 7, [[5, 5]]⟩]
    categories := [⟨2, "cavity"⟩]
    splitInfo := [("fold_0", [("train", ["im.jpg"])])] }

/-- Initial filesystem for `ctxC4`: just the source image. -/
def fsC4 : FS := ⟨∅, [(["im.jpg"], "DATA")]⟩

/-! ### General helper lemmas -/

theorem dlookup_eq_none_of_keys {α β : Type} [DecidableEq α] {ps : List (α × β)} {k : α}
    (h : ∀ e ∈ ps, e.1 ≠ k) : dlookup ps k = none := by
  induction ps with
  | nil => rfl
  | cons kv rest ih =>
    simp only [dlookup]
    rw [ih (fun e he => h e (List.mem_cons_of_mem kv he))]
    rw [if_neg (fun hk => h kv (List.mem_cons_self kv rest) hk.symm)]

theorem snd_mem_of_enumerateFrom {α : Type} {l : List α} :
    ∀ {k : Nat} {p : Nat × α}, p ∈ enumerateFrom k l → p.2 ∈ l := by
  induction l with
  | nil => intro k p hp; simp [enumerateFrom] at hp
  | cons a t ih =>
    intro k p hp
    simp only [enumerateFrom, List.mem_cons] at hp
    rcases hp with rfl | hp
    · exact List.mem_cons_self _ _
    · exact List.mem_cons_of_mem _ (ih hp)

theorem dlookup_enum_pairs {l : List String} (hl : l.Nodup) (k i : Nat) (hi : i < l.length) :
    dlookup ((enumerateFrom k l).map (fun p => (p.2, p.1))) (l.get ⟨i, hi⟩) = some (k + i) := by
  induction l generalizing k i with
  | nil => exact absurd hi (by simp)
  | cons a t ih =>
    cases i with
    | zero =>
      have hat : a ∉ t := (List.nodup_cons.mp hl).1
      have hnone : dlookup ((enumerateFrom (k + 1) t).map (fun p => (p.2, p.1))) a = none := by
        apply dlookup_eq_none_of_keys
        intro e he
        obtain ⟨p, hp, rfl⟩ := List.mem_map.mp he
        intro hpa
        exact hat (hpa ▸ snd_mem_of_enumerateFrom hp)
      show dlookup _ a = some (k + 0)
      simp only [enumerateFrom, List.map_cons, dlookup, hnone]
      simp
    | succ j =>
      have hj : j < t.length := by simpa using hi
      have hrec := ih (List.nodup_cons.mp hl).2 (k + 1) j hj
      show dlookup ((a, k) :: (enumerateFrom (k + 1) t).map (fun p => (p.2, p.1)))
          (t.get ⟨j, hj⟩) = some (k + (j + 1))
      simp only [dlookup, hrec]
      congr 1
      omega

theorem encodeAnns_all_none {catMap : Int → Option Nat} {w h : Int} :
    ∀ {l : List AnnRec}, (∀ a ∈ l, catMap a.category_id = none) →
      encodeAnns catMap w h l = .ok [] := by
  intro l
  induction l with
  | nil => intro _; rfl
  | cons a rest ih =>
    intro hall
    have hrest := ih (fun x hx => hall x (List.mem_cons_of_mem a hx))
    simp only [encodeAnns, hall a (List.mem_cons_self a rest), hrest]

theorem abs_roundHalfEven_sub_le (q : ℚ) : |(roundHalfEven q : ℚ) - q| ≤ 1 / 2 := by
  have hf0 : ((⌊q⌋ : Int) : ℚ) ≤ q := Int.floor_le q
  have hf1 : q < ((⌊q⌋ : Int) : ℚ) + 1 := Int.lt_floor_add_one q
  unfold roundHalfEven
  split_ifs with h1 h2 h3
  · rw [abs_le]
    constructor <;> linarith
  · rw [abs_le]
    push_cast
    constructor <;> linarith
  · rw [abs_le]
    have hle : 1 / 2 ≤ q - ⌊q⌋ := not_lt.mp h1
    constructor <;> linarith
  · rw [abs_le]
    have hle : 1 / 2 ≤ q - ⌊q⌋ := not_lt.mp h1
    have hge : q - ⌊q⌋ ≤ 1 / 2 := not_lt.mp h2
    push_cast
    constructor <;> linarith

theorem abs_emit6_sub_le (q : ℚ) : |emit6 q - q| ≤ 1 / 2000000 := by
  unfold emit6
  have h := abs_roundHalfEven_sub_le (q * 1000000)
  have heq : (roundHalfEven (q * 1000000) : ℚ) / 1000000 - q
      = ((roundHalfEven (q * 1000000) : ℚ) - q * 1000000) / 1000000 := by ring
  rw [heq, abs_div, abs_of_pos (by norm_num : (0 : ℚ) < 1000000)]
  rw [show (1 : ℚ) / 2000000 = (1 / 2) / 1000000 by norm_num]
  exact (div_le_div_right (by norm_num)).mpr h

/-! ### Claim C1 -/

/-- C1: for every image with positive width and height and every record of the
`annotations` array whose category id is mapped, the encoder takes the first
polygon ring, divides even-position coordinates by the width and odd-position
ones by the height, formats each to 6 decimals, and emits exactly one line
`<class_index> <x1> <y1> ...` per record in input order; in particular the
spec's example on a 200×100 image with class table cavity↦0, crown↦1 yields
the stated line. -/
theorem C1_label_encoder (catMap : Int → Option Nat) (w h : Int) (anns : List AnnRec)
    (hw : 0 < w) (hh : 0 < h)
    (hseg : ∀ a ∈ anns, (catMap a.category_id).isSome → a.segmentation ≠ []) :
    encodeAnns catMap w h anns
      = .ok (anns.filterMap (fun a => (catMap a.category_id).map (fun yid =>
          yoloLine yid (normalized_points w h (a.segmentation.headD [])))))
    ∧ encodeAnns (coco_cat_id_to_yolo_id [⟨7, "crown"⟩, ⟨2, "cavity"⟩]) 200 100
        [⟨1, 7, [[0, 0, 100, 0, 100, 100, 0, 100]]⟩]
      = .ok ["1 0.000000 0.000000 0.500000 0.000000 0.500000 1.000000 0.000000 1.000000"] := by
  constructor
  · induction anns with
    | nil => rfl
    | cons a rest ih =>
      have hrest := ih (fun x hx hsx => hseg x (List.mem_cons_of_mem a hx) hsx)
      cases hc : catMap a.category_id with
      | none => simp [encodeAnns, hc, hrest]
      | some yid =>
        cases hsg : a.segmentation with
        | nil =>
          exact absurd hsg (hseg a (List.mem_cons_self a rest) (by rw [hc]; rfl))
        | cons s srest =>
          simp [encodeAnns, hc, hsg, hrest]
  · decide

/-- Witness for C1 at the spec's concrete example. -/
theorem C1_label_encoder_witness :
    encodeAnns (coco_cat_id_to_yolo_id [⟨7, "crown"⟩, ⟨2, "cavity"⟩]) 200 100
        [⟨1, 7, [[0, 0, 100, 0, 100, 100, 0, 100]]⟩]
      = .ok ["1 0.000000 0.000000 0.500000 0.000000 0.500000 1.000000 0.000000 1.000000"] :=
  (C1_label_encoder (coco_cat_id_to_yolo_id [⟨7, "crown"⟩, ⟨2, "cavity"⟩]) 200 100
    [⟨1, 7, [[0, 0, 100, 0, 100, 100, 0, 100]]⟩]
    (by decide) (by decide) (by decide)).2

/-! ### Claim C2 -/

/-- C2: for category records with pairwise-distinct names the class table is
the ascending sorted name list with consecutive indices from 0, and the
name-to-index map depends only on the multiset of names: permuting the records
or changing ids yields the identical map. -/
theorem C2_class_table (cats₁ cats₂ : List CatRec) (i : Nat)
    (hnd : (cats₁.map CatRec.name).Nodup)
    (hperm : (cats₁.map CatRec.name).Perm (cats₂.map CatRec.name))
    (hi : i < (class_names_ordered cats₁).length) :
    List.Sorted (· ≤ ·) (class_names_ordered cats₁)
    ∧ class_name_to_id cats₁ ((class_names_ordered cats₁).get ⟨i, hi⟩) = some i
    ∧ class_name_to_id cats₁ = class_name_to_id cats₂ := by
  have hs1 : List.Sorted (· ≤ ·) (class_names_ordered cats₁) :=
    List.sorted_insertionSort _ _
  have hs2 : List.Sorted (· ≤ ·) (class_names_ordered cats₂) :=
    List.sorted_insertionSort _ _
  have hpc : (class_names_ordered cats₁).Perm (class_names_ordered cats₂) :=
    ((List.perm_insertionSort _ _).trans hperm).trans (List.perm_insertionSort _ _).symm
  have heq : class_names_ordered cats₁ = class_names_ordered cats₂ :=
    List.eq_of_perm_of_sorted hpc hs1 hs2
  have hnd1 : (class_names_ordered cats₁).Nodup :=
    ((List.perm_insertionSort _ _).nodup_iff).mpr hnd
  refine ⟨hs1, ?_, ?_⟩
  · simpa [class_name_to_id] using dlookup_enum_pairs hnd1 0 i hi
  · unfold class_name_to_id
    rw [heq]

/-- Witness for C2 on the spec's example categories, reordered and renumbered. -/
theorem C2_class_table_witness :
    class_name_to_id [⟨7, "crown"⟩, ⟨2, "cavity"⟩]
      = class_name_to_id [⟨12, "cavity"⟩, ⟨5, "crown"⟩] :=
  (C2_class_table [⟨7, "crown"⟩, ⟨2, "cavity"⟩] [⟨12, "cavity"⟩, ⟨5, "crown"⟩] 0
    (by decide) (by decide) (by decide)).2.2

/-! ### Claim C3 -/

/-- C3 counterexample: on a 4×4 image the coordinate 21/10^7 = 0.0000021 is
emitted as `0.000001`; re-scaling that emitted value by the width 4 gives
0.000004, which differs from the original by 0.0000019 > 1e-6, with or without
re-rounding to the source's 7-decimal precision. -/
theorem C3_roundtrip_cex :
    encodeAnns (coco_cat_id_to_yolo_id [⟨2, "cavity"⟩]) 4 4
        [⟨1, 2, [[21 / 10000000, 21 / 10000000]]⟩]
      = .ok ["0 0.000001 0.000001"]
    ∧ ¬ (|emit6 ((21 / 10000000 : ℚ) / ((4 : Int) : ℚ)) * ((4 : Int) : ℚ)
          - 21 / 10000000| ≤ 1 / 1000000)
    ∧ ¬ (|roundToPrec 7 (emit6 ((21 / 10000000 : ℚ) / ((4 : Int) : ℚ)) * ((4 : Int) : ℚ))
          - 21 / 10000000| ≤ 1 / 1000000) := by
  refine ⟨by decide, by decide, by decide⟩

/-- C3 (amended): each emitted coordinate is the exact quotient rounded to six
decimals, so it differs from `x/w` by at most 5e-7 and re-scaling by the
dimension reproduces the original only within `w`·5e-7 (not uniformly within
1e-6); out-of-range values are passed through unclamped, e.g. x = 300 on
width 200 is emitted as `1.500000`. -/
theorem C3_roundtrip_amended (w : Int) (x : ℚ) (hw : 0 < w) :
    |emit6 (x / (w : ℚ)) - x / (w : ℚ)| ≤ 1 / 2000000
    ∧ |emit6 (x / (w : ℚ)) * (w : ℚ) - x| ≤ (w : ℚ) / 2000000
    ∧ encodeAnns (coco_cat_id_to_yolo_id [⟨2, "cavity"⟩]) 200 100 [⟨1, 2, [[300, 50]]⟩]
        = .ok ["0 1.500000 0.500000"] := by
  have hw0 : (0 : ℚ) < (w : ℚ) := by exact_mod_cast hw
  have hwne : (w : ℚ) ≠ 0 := ne_of_gt hw0
  refine ⟨abs_emit6_sub_le _, ?_, by decide⟩
  have key : emit6 (x / (w : ℚ)) * (w : ℚ) - x
      = (emit6 (x / (w : ℚ)) - x / (w : ℚ)) * (w : ℚ) := by
    rw [sub_mul, div_mul_cancel₀ _ hwne]
  rw [key, abs_mul, abs_of_pos hw0]
  calc |emit6 (x / (w : ℚ)) - x / (w : ℚ)| * (w : ℚ)
      ≤ (1 / 2000000) * (w : ℚ) :=
        mul_le_mul_of_nonneg_right (abs_emit6_sub_le _) (le_of_lt hw0)
    _ = (w : ℚ) / 2000000 := by ring

/-- Witness for the amended C3 at width 200 and coordinate 100. -/
theorem C3_roundtrip_amended_witness :
    |emit6 ((100 : ℚ) / ((200 : Int) : ℚ)) - (100 : ℚ) / ((200 : Int) : ℚ)| ≤ 1 / 2000000
    ∧ |emit6 ((100 : ℚ) / ((200 : Int) : ℚ)) * ((200 : Int) : ℚ) - 100| ≤ ((200 : Int) : ℚ) / 2000000
    ∧ encodeAnns (coco_cat_id_to_yolo_id [⟨2, "cavity"⟩]) 200 100 [⟨1, 2, [[300, 50]]⟩]
        = .ok ["0 1.500000 0.500000"] :=
  C3_roundtrip_amended 200 100 (by decide)

/-! ### Claim C8 -/

/-- C8: a record of the `annotations` array whose category id is not in the
map is skipped silently — it contributes no line, no error is raised, and the
remaining records of the image are processed unchanged. -/
theorem C8_skip_unmapped (catMap : Int → Option Nat) (w h : Int) (a : AnnRec)
    (anns : List AnnRec) (hnone : catMap a.category_id = none) :
    encodeAnns catMap w h (a :: anns) = encodeAnns catMap w h anns := by
  simp only [encodeAnns, hnone]

/-- Witness for C8: category id 7 is unknown to the single-category table, so
the record is skipped even though its segmentation is empty. -/
theorem C8_skip_unmapped_witness :
    encodeAnns (coco_cat_id_to_yolo_id [⟨2, "cavity"⟩]) 10 10 [⟨1, 7, []⟩]
      = encodeAnns (coco_cat_id_to_yolo_id [⟨2, "cavity"⟩]) 10 10 [] :=
  C8_skip_unmapped (coco_cat_id_to_yolo_id [⟨2, "cavity"⟩]) 10 10 ⟨1, 7, []⟩ [] (by decide)

/-! ### Claim C9 -/

/-- C9: for a mapped record whose segmentation list is nonempty the access to
the first ring succeeds and one line is emitted; when the segmentation list is
empty the indexing error branch is reached, and on a concrete dataset that
error aborts the whole run — there is no guard at the encoder's interface. -/
theorem C9_first_ring_access (catMap : Int → Option Nat) (w h : Int) (a : AnnRec)
    (anns : List AnnRec) (yid : Nat) (hmap : catMap a.category_id = some yid) :
    (a.segmentation ≠ [] →
      encodeAnns catMap w h (a :: anns)
        = (encodeAnns catMap w h anns).map
            (fun ls => yoloLine yid (normalized_points w h (a.segmentation.headD [])) :: ls))
    ∧ (a.segmentation = [] → encodeAnns catMap w h (a :: anns) = .error ())
    ∧ create_yolo_datasets_for_all_folds ctxC9 fsC9 = .error () := by
  refine ⟨?_, ?_, by decide⟩
  · intro hne
    cases hsg : a.segmentation with
    | nil => exact absurd hsg hne
    | cons s srest =>
      simp only [encodeAnns, hmap, hsg, List.headD]
      cases hrec : encodeAnns catMap w h anns with
      | error e => rfl
      | ok ls => rfl
  · intro hnil
    simp only [encodeAnns, hmap, hnil]

/-- Witness for C9: concrete abort of the whole pipeline on an empty
segmentation list. -/
theorem C9_first_ring_access_witness :
    create_yolo_datasets_for_all_folds ctxC9 fsC9 = .error () :=
  (C9_first_ring_access (coco_cat_id_to_yolo_id [⟨2, "cavity"⟩]) 10 10 ⟨1, 2, []⟩ [] 0
    (by decide)).2.2

/-! ### Filesystem helper lemmas -/

theorem FS_ext {a b : FS} (hd : a.dirs = b.dirs) (hf : a.files = b.files) : a = b := by
  cases a
  cases b
  cases hd
  cases hf
  rfl

theorem pathUnder_append (p q : FPath) : pathUnder p (p ++ q) = true := by
  induction p with
  | nil => cases q <;> rfl
  | cons a r ih => simp [pathUnder, ih]

theorem pathUnder_self (p : FPath) : pathUnder p p = true := by
  simpa using pathUnder_append p []

theorem pathUnder_antisymm : ∀ {a b : FPath},
    pathUnder a b = true → pathUnder b a = true → a = b := by
  intro a
  induction a with
  | nil =>
    intro b h1 h2
    cases b with
    | nil => rfl
    | cons x xs => simp [pathUnder] at h2
  | cons x xs ih =>
    intro b h1 h2
    cases b with
    | nil => simp [pathUnder] at h1
    | cons y ys =>
      simp only [pathUnder, Bool.and_eq_true, beq_iff_eq] at h1 h2
      obtain ⟨rfl, h1r⟩ := h1
      rw [ih h1r h2.2]

theorem mem_prefixesOf_pathUnder : ∀ {p x : FPath}, x ∈ prefixesOf p → pathUnder x p = true := by
  intro p
  induction p with
  | nil => intro x hx; simp [prefixesOf] at hx
  | cons a rest ih =>
    intro x hx
    simp only [prefixesOf, List.mem_cons, List.mem_map] at hx
    rcases hx with rfl | ⟨q, hq, rfl⟩
    · simp [pathUnder]
    · simp [pathUnder, ih hq]

theorem self_mem_prefixesOf : ∀ (p q : FPath), p ≠ [] → p ∈ prefixesOf (p ++ q) := by
  intro p
  induction p with
  | nil => intro q h; exact absurd rfl h
  | cons a rest ih =>
    intro q _
    simp only [List.cons_append, prefixesOf, List.mem_cons, List.mem_map]
    rcases eq_or_ne rest [] with hr | hr
    · subst hr
      left
      rfl
    · right
      exact ⟨rest, ih q hr, rfl⟩

theorem self_mem_prefixesOf_self (p : FPath) (hne : p ≠ []) : p ∈ prefixesOf p := by
  simpa using self_mem_prefixesOf p [] hne

theorem prefixesOf_append (p q : FPath) :
    prefixesOf (p ++ q) = prefixesOf p ++ (prefixesOf q).map (fun r => p ++ r) := by
  induction p with
  | nil => simp [prefixesOf]
  | cons a rest ih =>
    simp only [List.cons_append, prefixesOf, List.append_eq, ih, List.map_append,
      List.map_map, Function.comp_def]

theorem filter_bool_idem {α : Type} (p : α → Bool) (l : List α) :
    (l.filter p).filter p = l.filter p := by
  rw [List.filter_filter]
  apply List.filter_congr
  intro a _
  rw [Bool.and_self]

theorem files_writeFile_filter {ob p : FPath} (hp : pathUnder ob p = true) (fs : FS) (c : String) :
    (writeFile fs p c).files.filter (fun e => !(pathUnder ob e.1))
      = fs.files.filter (fun e => !(pathUnder ob e.1)) := by
  show ((fs.files.filter (fun e => !(e.1 == p))) ++ [(p, c)]).filter
      (fun e => !(pathUnder ob e.1)) = _
  rw [List.filter_append]
  have h2 : List.filter (fun e => !(pathUnder ob e.1)) [(p, c)] = [] := by
    simp [hp]
  rw [h2, List.append_nil, List.filter_filter]
  apply List.filter_congr
  intro e _
  cases hq : pathUnder ob e.1 with
  | true => simp [hq]
  | false =>
    have hne : (e.1 == p) = false := by
      cases hbe : e.1 == p with
      | false => rfl
      | true =>
        have heq2 : e.1 = p := by simpa using hbe
        rw [heq2, hp] at hq
        cases hq
    simp [hq, hne]

theorem readFile_writeFile (fs : FS) (p : FPath) (c : String) :
    readFile (writeFile fs p c) p = some c := by
  show (((fs.files.filter (fun e => !(e.1 == p))) ++ [(p, c)]).find?
      (fun e => e.1 == p)).map (fun e => e.2) = _
  rw [List.find?_append]
  have h1 : (fs.files.filter (fun e => !(e.1 == p))).find? (fun e => e.1 == p) = none := by
    apply List.find?_eq_none.mpr
    intro x hx
    simpa using (List.mem_filter.mp hx).2
  rw [h1]
  simp [List.find?]

theorem files_makeSkeleton (fs : FS) (ob : FPath) : (makeSkeleton fs ob).files = fs.files := rfl

theorem dirs_makeSkeleton (fs : FS) (ob : FPath) :
    (makeSkeleton fs ob).dirs = fs.dirs ∪ skChain ob := by
  simp [makeSkeleton, mkdirp, skChain, Finset.union_assoc]

theorem processImage_inv {ctx : Ctx} {ob : FPath} {sn f : String} {fs g : FS}
    (h : processImage ctx ob sn f fs = .ok g) :
    g.dirs = fs.dirs
    ∧ g.files.filter (fun e => !(pathUnder ob e.1))
      = fs.files.filter (fun e => !(pathUnder ob e.1)) := by
  unfold processImage at h
  cases hf : findImageId ctx.images f with
  | none =>
    simp only [hf] at h
    injection h with h2
    subst h2
    exact ⟨rfl, rfl⟩
  | some imgId =>
    simp only [hf] at h
    cases hr : readFile fs (ctx.base ++ [f]) with
    | none =>
      simp only [hr] at h
      injection h with h2
      subst h2
      exact ⟨rfl, rfl⟩
    | some content =>
      simp only [hr] at h
      cases hl : dlookup (imagesItems ctx.images) imgId with
      | none => simp only [hl] at h; exact Except.noConfusion h
      | some img =>
        simp only [hl] at h
        cases hlc : labelContent (coco_cat_id_to_yolo_id ctx.categories) img.width img.height
            (anns_by_image_id ctx.anns imgId) with
        | error e => simp only [hlc] at h; exact Except.noConfusion h
        | ok lbl =>
          simp only [hlc] at h
          injection h with h2
          subst h2
          refine ⟨rfl, ?_⟩
          rw [files_writeFile_filter (pathUnder_append ob _),
              files_writeFile_filter (pathUnder_append ob _)]

theorem processFiles_inv {ctx : Ctx} {ob : FPath} {sn : String} :
    ∀ {fl : List String} {fs g : FS}, processFiles ctx ob sn fl fs = .ok g →
      g.dirs = fs.dirs
      ∧ g.files.filter (fun e => !(pathUnder ob e.1))
        = fs.files.filter (fun e => !(pathUnder ob e.1)) := by
  intro fl
  induction fl with
  | nil =>
    intro fs g h
    injection h with h2
    subst h2
    exact ⟨rfl, rfl⟩
  | cons f rest ih =>
    intro fs g h
    simp only [processFiles] at h
    cases hpi : processImage ctx ob sn f fs with
    | error e => rw [hpi] at h; exact Except.noConfusion h
    | ok fs1 =>
      rw [hpi] at h
      obtain ⟨d1, f1⟩ := processImage_inv hpi
      obtain ⟨d2, f2⟩ := ih h
      exact ⟨d2.trans d1, f2.trans f1⟩

theorem processSplits_inv {ctx : Ctx} {ob : FPath} :
    ∀ {sl : List (String × List String)} {fs g : FS},
      processSplits ctx ob sl fs = .ok g →
      g.dirs = fs.dirs
      ∧ g.files.filter (fun e => !(pathUnder ob e.1))
        = fs.files.filter (fun e => !(pathUnder ob e.1)) := by
  intro sl
  induction sl with
  | nil =>
    intro fs g h
    injection h with h2
    subst h2
    exact ⟨rfl, rfl⟩
  | cons s rest ih =>
    intro fs g h
    simp only [processSplits] at h
    cases hpf : processFiles ctx ob s.1 s.2 fs with
    | error e => rw [hpf] at h; exact Except.noConfusion h
    | ok fs1 =>
      rw [hpf] at h
      obtain ⟨d1, f1⟩ := processFiles_inv hpf
      obtain ⟨d2, f2⟩ := ih h
      exact ⟨d2.trans d1, f2.trans f1⟩

theorem foldBody_inv {ctx : Ctx} {i : Nat} {s g : FS} {m : List String}
    (h : foldBody ctx i s = .ok (g, m)) :
    g.dirs = s.dirs
    ∧ g.files.filter (fun e => !(pathUnder (outBase ctx i) e.1))
      = s.files.filter (fun e => !(pathUnder (outBase ctx i) e.1)) := by
  unfold foldBody at h
  cases hdl : dlookup ctx.splitInfo (foldName i) with
  | none =>
    simp only [hdl] at h
    injection h with h2
    injection h2 with hg hm
    subst hg
    exact ⟨rfl, rfl⟩
  | some splits =>
    simp only [hdl] at h
    by_cases hsp : splits.isEmpty
    · rw [if_pos hsp] at h
      injection h with h2
      injection h2 with hg hm
      subst hg
      exact ⟨rfl, rfl⟩
    · rw [if_neg hsp] at h
      cases hps : processSplits ctx (outBase ctx i) splits s with
      | error e => simp only [hps] at h; exact Except.noConfusion h
      | ok s2 =>
        simp only [hps] at h
        injection h with h2
        injection h2 with hg hm
        obtain ⟨d1, f1⟩ := processSplits_inv hps
        subst hg
        refine ⟨d1, ?_⟩
        rw [files_writeFile_filter (pathUnder_append _ _)]
        exact f1

theorem condRm_eq {fs : FS} {ob : FPath}
    (hsane : pathExists fs ob = false → rmtree fs ob = fs) :
    (if pathExists fs ob then rmtree fs ob else fs) = rmtree fs ob := by
  cases hpe : pathExists fs ob with
  | true => simp
  | false => simp [hsane hpe]

theorem ob_mem_skChain (ob : FPath) (hne : ob ≠ []) : ob ∈ skChain ob := by
  unfold skChain
  simp only [Finset.mem_union, List.mem_toFinset]
  exact Or.inl (Or.inl (Or.inl (Or.inl (Or.inl
    (self_mem_prefixesOf ob ["images", "train"] hne)))))

theorem skel_rm_stable (ob : FPath) (fs g : FS)
    (hd : g.dirs = (makeSkeleton (rmtree fs ob) ob).dirs)
    (hf : g.files.filter (fun e => !(pathUnder ob e.1))
        = (makeSkeleton (rmtree fs ob) ob).files.filter (fun e => !(pathUnder ob e.1))) :
    makeSkeleton (rmtree g ob) ob = makeSkeleton (rmtree fs ob) ob := by
  apply FS_ext
  · rw [dirs_makeSkeleton, dirs_makeSkeleton]
    have h1 : (rmtree g ob).dirs = g.dirs.filter (fun d => pathUnder ob d = false) := rfl
    rw [h1, hd, dirs_makeSkeleton]
    ext d
    simp only [Finset.mem_union, Finset.mem_filter, rmtree]
    tauto
  · rw [files_makeSkeleton, files_makeSkeleton]
    show g.files.filter (fun e => !(pathUnder ob e.1)) = (rmtree fs ob).files
    rw [hf, files_makeSkeleton]
    show (fs.files.filter (fun e => !(pathUnder ob e.1))).filter (fun e => !(pathUnder ob e.1))
        = fs.files.filter (fun e => !(pathUnder ob e.1))
    exact filter_bool_idem _ _

theorem prefixes_pair_filter (ob : FPath) (a b : String) (hne : ob ≠ []) :
    (prefixesOf (ob ++ [a, b])).toFinset.filter (fun d => pathUnder ob d = true)
      = {ob, ob ++ [a], ob ++ [a, b]} := by
  ext d
  simp only [Finset.mem_filter, List.mem_toFinset, Finset.mem_insert, Finset.mem_singleton]
  constructor
  · rintro ⟨hmem, hund⟩
    rw [prefixesOf_append] at hmem
    rcases List.mem_append.mp hmem with hmem | hmem
    · exact Or.inl (pathUnder_antisymm (mem_prefixesOf_pathUnder hmem) hund)
    · obtain ⟨r, hr, rfl⟩ := List.mem_map.mp hmem
      simp only [prefixesOf, List.map_cons, List.map_nil, List.mem_cons,
        List.mem_singleton, List.not_mem_nil] at hr
      rcases hr with rfl | rfl | hfalse
      · exact Or.inr (Or.inl rfl)
      · exact Or.inr (Or.inr rfl)
      · exact absurd hfalse (by simp)
  · intro hd
    rcases hd with rfl | rfl | rfl
    · refine ⟨?_, pathUnder_self d⟩
      rw [prefixesOf_append]
      exact List.mem_append.mpr (Or.inl (self_mem_prefixesOf_self d hne))
    · refine ⟨?_, pathUnder_append ob [a]⟩
      rw [prefixesOf_append]
      refine List.mem_append.mpr (Or.inr ?_)
      exact List.mem_map.mpr ⟨[a], by simp [prefixesOf], rfl⟩
    · refine ⟨?_, pathUnder_append ob [a, b]⟩
      rw [prefixesOf_append]
      refine List.mem_append.mpr (Or.inr ?_)
      exact List.mem_map.mpr ⟨[a, b], by simp [prefixesOf], rfl⟩

theorem skChain_filter_under (ob : FPath) (hne : ob ≠ []) :
    (skChain ob).filter (fun d => pathUnder ob d = true) = obSkel ob := by
  unfold skChain
  rw [Finset.filter_union, Finset.filter_union, Finset.filter_union, Finset.filter_union,
      Finset.filter_union]
  rw [prefixes_pair_filter ob "images" "train" hne, prefixes_pair_filter ob "labels" "train" hne,
      prefixes_pair_filter ob "images" "val" hne, prefixes_pair_filter ob "labels" "val" hne,
      prefixes_pair_filter ob "images" "test" hne, prefixes_pair_filter ob "labels" "test" hne]
  ext d
  simp only [obSkel, Finset.mem_union, Finset.mem_insert, Finset.mem_singleton]
  tauto

theorem dlookup_isSome_of_key {α β : Type} [DecidableEq α] {ps : List (α × β)} {k : α}
    (h : ∃ e ∈ ps, e.1 = k) : (dlookup ps k).isSome := by
  induction ps with
  | nil =>
    obtain ⟨e, he, _⟩ := h
    exact absurd he (List.not_mem_nil e)
  | cons kv rest ih =>
    simp only [dlookup]
    cases hr : dlookup rest k with
    | some v => simp
    | none =>
      obtain ⟨e, he, hek⟩ := h
      rcases List.mem_cons.mp he with rfl | hmem
      · rw [if_pos hek.symm]
        simp
      · have hs := ih ⟨e, hmem, hek⟩
        rw [hr] at hs
        simp at hs

/-! ### Claim C4 -/

/-- C4: a processed image — its file name resolves in the image index and its
source file is present — with zero qualifying records of the `annotations`
array (none at all, or none whose category id is in the map) still gets a
label file, and its content is the empty string. -/
theorem C4_empty_label (ctx : Ctx) (ob : FPath) (sn fname : String) (fs : FS)
    (imgId : Int) (content : String)
    (hfind : findImageId ctx.images fname = some imgId)
    (hsrc : readFile fs (ctx.base ++ [fname]) = some content)
    (hq : ∀ a ∈ anns_by_image_id ctx.anns imgId,
        coco_cat_id_to_yolo_id ctx.categories a.category_id = none) :
    resultReadFile (processImage ctx ob sn fname fs)
      (ob ++ ["labels", sn, stem fname ++ ".txt"]) = some "" := by
  have hexists : ∃ e ∈ imagesItems ctx.images, e.1 = imgId := by
    unfold findImageId at hfind
    obtain ⟨e, he, he1⟩ := Option.map_eq_some'.mp hfind
    exact ⟨e, List.mem_of_find?_eq_some he, he1⟩
  obtain ⟨img, himg⟩ := Option.isSome_iff_exists.mp (dlookup_isSome_of_key hexists)
  have hlbl : labelContent (coco_cat_id_to_yolo_id ctx.categories) img.width img.height
      (anns_by_image_id ctx.anns imgId) = .ok "" := by
    unfold labelContent
    rw [encodeAnns_all_none hq]
    rfl
  unfold processImage
  simp only [hfind, hsrc, himg, hlbl]
  show readFile (writeFile _ _ "") _ = some ""
  exact readFile_writeFile _ _ _

/-- Witness for C4: one image whose only record of the `annotations` array has
an unmapped category id; the emitted label file exists with empty content. -/
theorem C4_empty_label_witness :
    resultReadFile (processImage ctxC4 (outBase ctxC4 0) "train" "im.jpg" fsC4)
      (outBase ctxC4 0 ++ ["labels", "train", stem "im.jpg" ++ ".txt"]) = some "" :=
  C4_empty_label ctxC4 (outBase ctxC4 0) "train" "im.jpg" fsC4 1 "DATA"
    (by decide) (by decide) (by decide)

/-! ### Claim C5 -/

/-- C5: a file name that matches no image record, or whose source image file
is missing on disk, is skipped silently — the filesystem is unchanged (no
copy, no label file), no error is raised, and the loop over the remaining
file names of the split continues as if the name were absent. -/
theorem C5_skip_missing (ctx : Ctx) (ob : FPath) (sn fname : String) (rest : List String)
    (fs : FS)
    (h : findImageId ctx.images fname = none ∨ readFile fs (ctx.base ++ [fname]) = none) :
    processImage ctx ob sn fname fs = .ok fs
    ∧ processFiles ctx ob sn (fname :: rest) fs = processFiles ctx ob sn rest fs := by
  have h1 : processImage ctx ob sn fname fs = .ok fs := by
    rcases h with h | h
    · unfold processImage
      simp only [h]
    · cases hf : findImageId ctx.images fname with
      | none =>
        unfold processImage
        simp only [hf]
      | some imgId =>
        unfold processImage
        simp only [hf, h]
  refine ⟨h1, ?_⟩
  simp only [processFiles, h1]

/-- Witness for C5: a file name that matches no image record in an empty index. -/
theorem C5_skip_missing_witness :
    processImage ctx0 (outBase ctx0 0) "train" "x.jpg" fs0 = .ok fs0
    ∧ processFiles ctx0 (outBase ctx0 0) "train" ["x.jpg"] fs0
      = processFiles ctx0 (outBase ctx0 0) "train" [] fs0 :=
  C5_skip_missing ctx0 (outBase ctx0 0) "train" "x.jpg" [] fs0 (by decide)

/-! ### Claim C6 -/

/-- C6: a fold among fold_0..fold_4 whose name is absent from the split
manifest is reported (the error message is emitted) and skipped — the fold
step returns successfully with only the freshly recreated skeleton — and the
fold loop continues with the next fold instead of aborting. -/
theorem C6_missing_fold (ctx : Ctx) (i : Nat) (fs : FS) (rest : List Nat) (log : List String)
    (hi : i < 5)
    (habs : dlookup ctx.splitInfo (foldName i) = none) :
    runFoldFS ctx i fs
      = .ok (makeSkeleton
              (if pathExists fs (outBase ctx i) then rmtree fs (outBase ctx i) else fs)
              (outBase ctx i), [missingMsg (foldName i)])
    ∧ runFolds ctx (i :: rest) fs log
      = runFolds ctx rest
          (makeSkeleton
            (if pathExists fs (outBase ctx i) then rmtree fs (outBase ctx i) else fs)
            (outBase ctx i))
          (log ++ [missingMsg (foldName i)]) := by
  have h1 : runFoldFS ctx i fs
      = .ok (makeSkeleton
              (if pathExists fs (outBase ctx i) then rmtree fs (outBase ctx i) else fs)
              (outBase ctx i), [missingMsg (foldName i)]) := by
    unfold runFoldFS foldBody
    simp only [habs]
  refine ⟨h1, ?_⟩
  simp only [runFolds, h1]

/-- Witness for C6 on the empty manifest. -/
theorem C6_missing_fold_witness :
    runFolds ctx0 [0] fs0 []
      = runFolds ctx0 []
          (makeSkeleton
            (if pathExists fs0 (outBase ctx0 0) then rmtree fs0 (outBase ctx0 0) else fs0)
            (outBase ctx0 0))
          ([] ++ [missingMsg (foldName 0)]) :=
  (C6_missing_fold ctx0 0 fs0 [] [] (by decide) (by decide)).2

/-! ### Claim C7 -/

/-- C7: one fold iteration first deletes the fold's output directory and
recreates the fresh skeleton, so it is idempotent: if a run from `fs`
succeeds and produces `fs2`, running the same fold again on `fs2` succeeds
and reproduces exactly the same filesystem (and messages) — byte-identical
trees. The side condition says the initial state is a sane filesystem: if the
output directory does not exist, nothing is stored beneath it. -/
theorem C7_fold_idempotent (ctx : Ctx) (i : Nat) (fs fs2 : FS) (msgs : List String)
    (hsane : pathExists fs (outBase ctx i) = false → rmtree fs (outBase ctx i) = fs)
    (h : runFoldFS ctx i fs = .ok (fs2, msgs)) :
    runFoldFS ctx i fs2 = .ok (fs2, msgs) := by
  unfold runFoldFS at h ⊢
  rw [condRm_eq hsane] at h
  obtain ⟨hd, hf⟩ := foldBody_inv h
  have hne : outBase ctx i ≠ [] := by simp [outBase]
  have hmem : outBase ctx i ∈ fs2.dirs := by
    rw [hd, dirs_makeSkeleton]
    exact Finset.mem_union_right _ (ob_mem_skChain _ hne)
  have hex : pathExists fs2 (outBase ctx i) = true := by
    simp [pathExists, hmem]
  rw [if_pos hex, skel_rm_stable (outBase ctx i) fs fs2 hd hf]
  exact h

/-- Witness for C7: re-running fold 0 on the state produced by a first run. -/
theorem C7_fold_idempotent_witness :
    runFoldFS ctx0 0 (makeSkeleton fs0 (outBase ctx0 0))
      = .ok (makeSkeleton fs0 (outBase ctx0 0), [missingMsg "fold_0"]) :=
  C7_fold_idempotent ctx0 0 fs0 (makeSkeleton fs0 (outBase ctx0 0)) [missingMsg "fold_0"]
    (by decide) (by decide)

/-! ### Claim C10 -/

/-- C10: for a fold whose manifest entry is missing — or present but an empty
mapping, which the falsiness check treats the same way — the fold step has
already destroyed the previous output directory and built the fresh skeleton
before the omission is detected: the step returns exactly the skeleton state
with the message, no file remains under the output directory, and the
directories under it are exactly the nine empty skeleton directories. -/
theorem C10_skip_not_atomic (ctx : Ctx) (i : Nat) (fs : FS)
    (hsane : pathExists fs (outBase ctx i) = false → rmtree fs (outBase ctx i) = fs)
    (habs : dlookup ctx.splitInfo (foldName i) = none
            ∨ dlookup ctx.splitInfo (foldName i) = some []) :
    runFoldFS ctx i fs
      = .ok (makeSkeleton (rmtree fs (outBase ctx i)) (outBase ctx i),
             [missingMsg (foldName i)])
    ∧ (makeSkeleton (rmtree fs (outBase ctx i)) (outBase ctx i)).files.filter
        (fun e => pathUnder (outBase ctx i) e.1) = []
    ∧ (makeSkeleton (rmtree fs (outBase ctx i)) (outBase ctx i)).dirs.filter
        (fun d => pathUnder (outBase ctx i) d = true) = obSkel (outBase ctx i) := by
  refine ⟨?_, ?_, ?_⟩
  · unfold runFoldFS foldBody
    rw [condRm_eq hsane]
    rcases habs with habs | habs
    · simp only [habs]
    · simp only [habs, List.isEmpty_nil, if_true]
  · rw [files_makeSkeleton]
    show (fs.files.filter (fun e => !(pathUnder (outBase ctx i) e.1))).filter
        (fun e => pathUnder (outBase ctx i) e.1) = []
    rw [List.filter_filter]
    apply List.filter_eq_nil_iff.mpr
    intro a _
    cases hq : pathUnder (outBase ctx i) a.1 <;> simp [hq]
  · rw [dirs_makeSkeleton, Finset.filter_union]
    have h1 : (rmtree fs (outBase ctx i)).dirs.filter
        (fun d => pathUnder (outBase ctx i) d = true) = ∅ := by
      apply Finset.filter_eq_empty_iff.mpr
      intro d hd
      have hd2 := Finset.mem_filter.mp hd
      rw [hd2.2]
      simp
    rw [h1, Finset.empty_union]
    exact skChain_filter_under (outBase ctx i) (by simp [outBase])

/-- Witness for C10 on the empty manifest: the result of the skipped fold is
exactly the empty skeleton. -/
theorem C10_skip_not_atomic_witness :
    runFoldFS ctx0 0 fs0
      = .ok (makeSkeleton (rmtree fs0 (outBase ctx0 0)) (outBase ctx0 0),
             [missingMsg (foldName 0)]) :=
  (C10_skip_not_atomic ctx0 0 fs0 (by decide) (Or.inl (by decide))).1
